import Mathlib

/-!
# Verification of the razee package-manager installer

Shallow embedding of the resolution-and-installation engine:
* `resolve_version` embeds `src/main.rs::resolve_version` (with the
  `node_semver` version/range fragment it relies on),
* `entry_target_path` embeds the tar-entry path rewriting of
  `src/main.rs::fetch_tarball`,
* `fetch_tarball_model` embeds the idempotence check and extraction loop,
* `fetch_dependency_model` / `http_fetch_tarball` embed the HTTP client
  behaviors of `src/http_client.rs`,
* `step` / `run` give an interleaving semantics for the concurrent
  `process_dep` traversal of `src/main.rs`.
-/

open Batteries

/-! ## Semantic versions (model of `node_semver::Version`) -/

/-- Model of `node_semver::Identifier`: a pre-release identifier is either a
numeric component or an alphanumeric string.  Numeric identifiers order below
alphanumeric ones. -/
inductive Identifier where
  | num (n : Nat)
  | alpha (s : List Char)
deriving DecidableEq

/-- Model of `node_semver::Version`: major/minor/patch plus pre-release
identifiers.  Build metadata is ignored by precedence, so it is not carried. -/
structure SemVer where
  major : Nat
  minor : Nat
  patch : Nat
  pre : List Identifier
deriving DecidableEq

/-- Character comparison by code point (Rust byte order on ASCII). -/
def charCmp : Char → Char → Ordering := Ordering.byKey Char.toNat compare

/-- Lexicographic list comparison: a strict prefix orders below the longer
list, matching semver pre-release comparison. -/
def listCmp (c : α → α → Ordering) : List α → List α → Ordering
  | [], [] => .eq
  | [], _ :: _ => .lt
  | _ :: _, [] => .gt
  | a :: as, b :: bs => (c a b).then (listCmp c as bs)

/-- Variant tag of an identifier: numeric sorts before alphanumeric. -/
def idTag : Identifier → Nat
  | .num _ => 0
  | .alpha _ => 1

/-- Numeric payload of an identifier (0 for alphanumeric). -/
def idNum : Identifier → Nat
  | .num n => n
  | .alpha _ => 0

/-- String payload of an identifier (empty for numeric). -/
def idStr : Identifier → List Char
  | .num _ => []
  | .alpha s => s

/-- Identifier comparison: numeric < alphanumeric, numerics by value,
alphanumerics by string. -/
def idCmp : Identifier → Identifier → Ordering :=
  compareLex (Ordering.byKey idTag compare)
    (compareLex (Ordering.byKey idNum compare)
      (Ordering.byKey idStr (listCmp charCmp)))

/-- Rank separating empty pre-release lists (release, highest) from non-empty
ones (pre-release, lower). -/
def preRank (l : List Identifier) : Nat := if l.isEmpty then 1 else 0

/-- Pre-release list comparison per semver precedence: a release (empty list)
is greater than any pre-release; two pre-releases compare lexicographically. -/
def preCmp : List Identifier → List Identifier → Ordering :=
  compareLex (Ordering.byKey preRank compare) (listCmp idCmp)

/-- Semver precedence comparison (the `Ord` of `node_semver::Version`). -/
def verCmp : SemVer → SemVer → Ordering :=
  compareLex (Ordering.byKey SemVer.major compare)
    (compareLex (Ordering.byKey SemVer.minor compare)
      (compareLex (Ordering.byKey SemVer.patch compare)
        (Ordering.byKey SemVer.pre preCmp)))

/-! ## Version parsing (model of `node_semver::Version::parse`)

String scanning is modelled over `List Char` so that every definition
evaluates by kernel reduction. -/

/-- Split a character list on a separator character (the semantics of
splitting a string on a one-character pattern). -/
def splitOnC (sep : Char) : List Char → List (List Char)
  | [] => [[]]
  | c :: cs =>
    if c = sep then [] :: splitOnC sep cs
    else
      match splitOnC sep cs with
      | s :: ss => (c :: s) :: ss
      | [] => [[c]]

/-- Join character lists with a separator character. -/
def intercalateC (sep : Char) : List (List Char) → List Char
  | [] => []
  | s :: rest => rest.foldl (fun acc t => acc ++ sep :: t) s

/-- Decimal value of a digit string. -/
def charsToNat (cs : List Char) : Nat :=
  cs.foldl (fun acc c => acc * 10 + (c.toNat - '0'.toNat)) 0

/-- Is the listing key a dotted entry?  (`version.contains(".")`.) -/
def hasDot (s : String) : Bool := s.toList.contains '.'

/-- Parse one pre-release identifier: all-digit strings are numeric, other
strings of identifier characters are alphanumeric, anything else is invalid. -/
def parseIdentifier (cs : List Char) : Option Identifier :=
  if cs.isEmpty then none
  else if cs.all (fun c => c.isDigit) then some (.num (charsToNat cs))
  else if cs.all (fun c => c.isAlphanum || c == '-') then some (.alpha cs)
  else none

/-- Parse the dotted `major.minor.patch` core of a version string. -/
def parseCoreChars (cs : List Char) : Option (Nat × Nat × Nat) :=
  match splitOnC '.' cs with
  | [a, b, c] =>
    if !a.isEmpty && a.all (fun ch => ch.isDigit) &&
        !b.isEmpty && b.all (fun ch => ch.isDigit) &&
        !c.isEmpty && c.all (fun ch => ch.isDigit) then
      some (charsToNat a, charsToNat b, charsToNat c)
    else none
  | _ => none

/-- Model of `node_semver::Version::parse`: optional leading `v`, a
three-part numeric core, an optional pre-release after the first `-`, build
metadata after `+` discarded.  Returns `none` exactly where the Rust parse
fails. -/
def parseVersion (s : String) : Option SemVer :=
  let cs :=
    match s.toList with
    | 'v' :: rest => rest
    | other => other
  let beforeBuild := (splitOnC '+' cs).headD []
  match splitOnC '-' beforeBuild with
  | [] => none
  | core :: rest =>
    match parseCoreChars core with
    | none => none
    | some (x, y, z) =>
      if rest.isEmpty then some ⟨x, y, z, []⟩
      else
        match (splitOnC '.' (intercalateC '-' rest)).mapM parseIdentifier with
        | some l => some ⟨x, y, z, l⟩
        | none => none

/-! ## Ranges (the fragment of `node_semver::Range` the claims exercise) -/

/-- Model of the `node_semver::Range` forms relevant here. -/
inductive Range where
  | exact (c : SemVer)
  | caret (c : SemVer)
  | tilde (c : SemVer)
  | star
deriving DecidableEq

/-- Boolean order test `a ≤ b` under semver precedence. -/
def verLeB (a b : SemVer) : Bool := verCmp a b != .gt

/-- Same major/minor/patch triple. -/
def sameTriple (a b : SemVer) : Bool :=
  a.major == b.major && a.minor == b.minor && a.patch == b.patch

/-- Pre-release gate of node-semver matching: a pre-release version only
satisfies a range whose comparator carries a pre-release on the same triple. -/
def preOk (c v : SemVer) : Bool :=
  v.pre.isEmpty || (!c.pre.isEmpty && sameTriple c v)

/-- Model of `Range::satisfies` for the modelled range forms. -/
def satisfies (r : Range) (v : SemVer) : Bool :=
  match r with
  | .exact c => verCmp c v == .eq
  | .caret c =>
    preOk c v && verLeB c v &&
      (if c.major > 0 then v.major == c.major
       else if c.minor > 0 then v.major == 0 && v.minor == c.minor
       else sameTriple c v)
  | .tilde c =>
    preOk c v && verLeB c v && v.major == c.major && v.minor == c.minor
  | .star => v.pre.isEmpty

/-! ## `resolve_version` (embedding of `src/main.rs::resolve_version`)

The Rust function builds a lazy iterator over `package.time` keys containing
a `.`, parsing each with `Version::parse(v).unwrap()`: an unparseable dotted
key panics at the point the iterator reaches it.  `find` walks that iterator
looking for a satisfying version; on failure the whole iterator is collected
and the length-1 / maximum fallback runs.  Panics are modelled as errors. -/

/-- How the Rust `resolve_version` can abort: the `.unwrap()` panic on an
unparseable dotted key, or the `expect` panic when no versions exist. -/
inductive ResolveErr where
  | parsePanic
  | noVersions
deriving DecidableEq

instance exceptDecEq {e a : Type} [DecidableEq e] [DecidableEq a] :
    DecidableEq (Except e a) := fun x y =>
  match x, y with
  | .ok u, .ok v =>
    if h : u = v then isTrue (by rw [h])
    else isFalse (fun hc => h (Except.ok.inj hc))
  | .error u, .error v =>
    if h : u = v then isTrue (by rw [h])
    else isFalse (fun hc => h (Except.error.inj hc))
  | .ok _, .error _ => isFalse (fun hc => Except.noConfusion hc)
  | .error _, .ok _ => isFalse (fun hc => Except.noConfusion hc)

/-- The `find` over the lazy parsed iterator: parse each dotted key in listing
order (panicking on failure) until one satisfies the requested range. -/
def findSatisfied (r : Range) : List String → Except ResolveErr (Option SemVer)
  | [] => .ok none
  | k :: ks =>
    match parseVersion k with
    | none => .error .parsePanic
    | some v => if satisfies r v then .ok (some v) else findSatisfied r ks

/-- The `collect()` of the parsed iterator: parse every dotted key, panicking
on the first failure. -/
def collectVersions : List String → Except ResolveErr (List SemVer)
  | [] => .ok []
  | k :: ks =>
    match parseVersion k with
    | none => .error .parsePanic
    | some v =>
      match collectVersions ks with
      | .ok vs => .ok (v :: vs)
      | .error e => .error e

/-- One step of `Iterator::max`: keep the accumulator only when the next
element is strictly smaller, so ties keep the later element. -/
def maxStep (acc x : SemVer) : SemVer := if verCmp x acc = .lt then acc else x

/-- `versions.iter().max()`: `none` on an empty list. -/
def listMax : List SemVer → Option SemVer
  | [] => none
  | v :: vs => some (vs.foldl maxStep v)

/-- Embedding of `resolve_version` from `src/main.rs`.  `timeKeys` are the
keys of `package.time` in iteration order. -/
def resolve_version (timeKeys : List String) (requested : Range) :
    Except ResolveErr SemVer :=
  let dotted := timeKeys.filter hasDot
  match findSatisfied requested dotted with
  | .error e => .error e
  | .ok (some v) => .ok v
  | .ok none =>
    match collectVersions dotted with
    | .error e => .error e
    | .ok versions =>
      match versions with
      | [v] => .ok v
      | _ =>
        match listMax versions with
        | some m => .ok m
        | none => .error .noVersions

/-- The parseable candidate set of a listing: dotted keys that parse. -/
def parsedCandidates (timeKeys : List String) : List SemVer :=
  (timeKeys.filter hasDot).filterMap parseVersion

/-! ## Tar entry path rewriting (embedding of `src/main.rs::fetch_tarball`)

Paths are modelled as `List Char`.  The Rust code computes
`entry.path().replace("package", &dep_dir)`; `str::replace` substitutes
every non-overlapping occurrence of the pattern, left to right.  If the
result does not start with `node_modules`, the entry is re-rooted under
`dep_dir` and immediately repeated path segments are collapsed. -/

/-- Leftmost non-overlapping replacement of every occurrence of `pat` by
`rep`, structurally recursive on a fuel bounded by the input length (one
unit of fuel is spent per consumed input character, and a match consumes at
least one character since `"package"` is non-empty). -/
def lcReplaceFuel (pat rep : List Char) : Nat → List Char → List Char
  | 0, s => s
  | fuel + 1, s =>
    match s with
    | [] => []
    | c :: cs =>
      if pat.isPrefixOf (c :: cs) then
        rep ++ lcReplaceFuel pat rep fuel (List.drop (pat.length - 1) cs)
      else
        c :: lcReplaceFuel pat rep fuel cs

/-- The semantics of Rust `str::replace`: substitute every non-overlapping
occurrence of `pat` by `rep`, left to right. -/
def lcReplace (pat rep s : List Char) : List Char := lcReplaceFuel pat rep s.length s

/-- Does `pat` occur as a contiguous substring of `s`? -/
def lcContains (pat : List Char) : List Char → Bool
  | [] => pat.isEmpty
  | c :: cs => pat.isPrefixOf (c :: cs) || lcContains pat cs

/-- Split a path on `/` (the `path.split("/")` of the Rust code). -/
def splitSeg : List Char → List (List Char) := splitOnC '/'

/-- Join path segments with `/` (the `new_path.join("/")`). -/
def joinSeg : List (List Char) → List Char := intercalateC '/'

/-- Skip every segment equal to the previously kept one (the loop that pushes
a part only when it differs from `new_path.last()`). -/
def collapseGo (prev : List Char) : List (List Char) → List (List Char)
  | [] => []
  | x :: xs => if x = prev then collapseGo prev xs else x :: collapseGo x xs

/-- Collapse immediately repeated identical path segments to one occurrence. -/
def collapseAdj : List (List Char) → List (List Char)
  | [] => []
  | p :: ps => p :: collapseGo p ps

/-- The constant `NODE_MODULES`. -/
def nmChars : List Char := "node_modules".toList

/-- The pattern `"package"` handed to `replace`. -/
def pkgPat : List Char := "package".toList

/-- `format!("{NODE_MODULES}/{dep_name}")`. -/
def depDir (dep_name : List Char) : List Char := nmChars ++ '/' :: dep_name

/-- Target path of one archive entry in `fetch_tarball`: substitute
`"package"` by `dep_dir` everywhere; if the result does not start with
`node_modules`, re-root it under `dep_dir` and collapse repeated segments. -/
def entry_target_path (dep_name entry : List Char) : List Char :=
  let dd := depDir dep_name
  let path := lcReplace pkgPat dd entry
  if nmChars.isPrefixOf path then path
  else joinSeg (collapseAdj (splitSeg (dd ++ '/' :: path)))

/-! ## The install step (embedding of `src/main.rs::fetch_tarball`) -/

/-- The `dist` object of a resolved package: tarball URL and the optional
`fileCount` declared by the registry. -/
structure DependencyDist where
  tarball : List Char
  file_count : Option Nat
deriving DecidableEq

/-- On-disk state: existing directory paths and existing file paths. -/
structure FS where
  dirs : List (List Char)
  files : List (List Char)
deriving DecidableEq

/-- `Path::new(p).exists()`: true for a directory or a file. -/
def pathExists (fs : FS) (p : List Char) : Bool :=
  fs.dirs.contains p || fs.files.contains p

/-- The `WalkDir` file count under `dir`: every existing file at or below
the directory. -/
def walkFileCount (fs : FS) (dir : List Char) : Nat :=
  (fs.files.filter (fun f => f == dir || (dir ++ ['/']).isPrefixOf f)).length

/-- Every non-trivial prefix of the folder chain, as created by
`fs::create_dir_all`. -/
def prefixPaths (folders : List (List Char)) : List (List Char) :=
  (List.range folders.length).map (fun i => joinSeg (folders.take (i + 1)))

/-- Extract the archive entries in order: compute each target path, create
its parent folders, and write the entry only when the target does not exist
yet.  Returns the final filesystem and the list of written paths. -/
def extract_entries (fs : FS) (dep_name : List Char) (archive : List (List Char)) :
    FS × List (List Char) :=
  archive.foldl
    (fun st e =>
      let path := entry_target_path dep_name e
      let folders := (splitSeg path).dropLast
      let fs1 :=
        if folders.length > 1 then
          { st.1 with dirs := st.1.dirs ++ prefixPaths folders }
        else st.1
      if pathExists fs1 path then (fs1, st.2)
      else ({ fs1 with files := fs1.files ++ [path] }, st.2 ++ [path]))
    (fs, [])

/-- Embedding of `fetch_tarball` from `src/main.rs`: returns the number of
network requests performed, the resulting filesystem and the written paths.
The short-circuit fires exactly when `node_modules/{dep_name}` exists, a
`fileCount` is declared, and the walked file count equals it; otherwise the
tarball is downloaded (one request) and extracted. -/
def fetch_tarball_model (fs : FS) (dep_name : List Char) (dist : DependencyDist)
    (archive : List (List Char)) : Nat × FS × List (List Char) :=
  let dd := depDir dep_name
  let skip :=
    pathExists fs dd &&
      (match dist.file_count with
       | some fc => walkFileCount fs dd == fc
       | none => false)
  if skip then (0, fs, [])
  else
    let ex := extract_entries fs dep_name archive
    (1, ex.1, ex.2)

/-! ## HTTP client behaviors (embedding of `src/http_client.rs`) -/

/-- A follow-up request the client can issue. -/
inductive Req where
  | latestAlias (name : String)
  | getUrl (url : List Char)
deriving DecidableEq

/-- An HTTP response: status code and opaque body. -/
structure HttpResp where
  status : Nat
  body : List Nat
deriving DecidableEq

/-- `reqwest::StatusCode::is_success`: the 2xx class. -/
def isSuccessStatus (s : Nat) : Bool := 200 ≤ s && s < 300

/-- Embedding of `HttpClient::fetch_dependency` after the initial request
returned `resp` (cache miss assumed; the cache path issues no request at
all).  The Rust `match` accepts exactly `StatusCode::OK`; every other status
falls to the `_` arm, which issues one request to the `latest` alias and uses
its body.  Returns the body used and the follow-up requests issued. -/
def fetch_dependency_model (name : String) (resp : HttpResp)
    (latestBody : List Nat) : List Nat × List Req :=
  if resp.status = 200 then (resp.body, [])
  else (latestBody, [Req.latestAlias name])

/-- The transport-level failure the spec calls `NetworkError`.  The Rust
tarball fetch can only hit it through `send().unwrap()` (a transport error);
it never inspects the response status. -/
inductive NetErr where
  | networkError
deriving DecidableEq

/-- Association-list lookup modelling the `FrozenMap` caches. -/
def cacheLookup (cache : List (List Char × List Nat)) (url : List Char) :
    Option (List Nat) :=
  match cache with
  | [] => none
  | (k, v) :: rest => if k = url then some v else cacheLookup rest url

/-- Embedding of `HttpClient::fetch_tarball`: consult the cache; on a miss,
GET the tarball URL and return the raw body whatever the status is — the
code calls `.bytes()` directly and never checks `resp.status()`.  Returns
the result, the requests issued and the updated cache. -/
def http_fetch_tarball (cache : List (List Char × List Nat)) (url : List Char)
    (resp : HttpResp) :
    Except NetErr (List Nat) × List Req × List (List Char × List Nat) :=
  match cacheLookup cache url with
  | some b => (.ok b, [], cache)
  | none => (.ok resp.body, [Req.getUrl url], cache ++ [(url, resp.body)])

/-! ## The concurrent graph walk (embedding of `src/main.rs::process_dep`)

`process_dep` is an async function; its atomic blocks are separated by
await points and by the two `processed_deps.lock()` critical sections:

1. `fetch_dep(&dep).await`                    — fetch the manifest;
2. `processed.insert(dep.name, dep)`          — insert self, under the lock;
3. read `processed`, filter `package.dependencies` into `needs_processing`
   — under a second, separate lock acquisition;
4. `tarball_promise.await`                    — run `fetch_tarball`;
5. `join_all(...)`                            — spawn one task per child.

A configuration holds the shared visited map (as its key list), an event
log, and the task pool; a schedule picks which task advances next. -/

/-- A dependency request: name and requested range string. -/
structure Dep where
  name : String
  version : String
deriving DecidableEq

/-- A resolved package manifest as `process_dep` consumes it: runtime
dependencies and devDependencies (both optional maps, modelled as lists). -/
structure DependencyR where
  name : String
  dependencies : Option (List (String × String))
  dev_dependencies : Option (List (String × String))
deriving DecidableEq

/-- Observable events: a manifest fetch (`fetch_dep`) and an archive install
(`fetch_tarball`) for a package name. -/
inductive Ev where
  | fetchMan (name : String)
  | install (name : String)
deriving DecidableEq

/-- The children pushed onto `needs_processing`: iterate the resolved
package's `dependencies` map (devDependencies are not consulted) and keep
every entry whose name is not yet a key of `processed`. -/
def expansion_children (visited : List String) (package : DependencyR) : List Dep :=
  match package.dependencies with
  | none => []
  | some deps =>
    (deps.filter (fun kv => !visited.contains kv.1)).map
      (fun kv => { name := kv.1, version := kv.2 })

/-- The combined dependency mapping in the words of the spec: runtime
dependencies together with devDependencies.  Modelled from the spec for the
refinement comparison of the expansion step; the code under `src/` is the
authority for `expansion_children`. -/
def spec_combined_mapping (package : DependencyR) : List (String × String) :=
  package.dependencies.getD [] ++ package.dev_dependencies.getD []

/-- One `process_dep` invocation with its program counter: 0 = about to
fetch the manifest, 1 = about to insert itself into the visited map, 2 =
about to read the visited map and compute children, 3 = about to await the
tarball install, 4 = about to spawn child tasks, 5 = done. -/
structure VTask where
  dep : Dep
  pc : Nat
  children : List Dep
deriving DecidableEq

/-- Shared state of a run: visited-map keys, event log, task pool. -/
structure Config where
  visited : List String
  log : List Ev
  tasks : List VTask
deriving DecidableEq

/-- The registry: what `fetch_dep` returns for each package name. -/
def Reg := String → DependencyR

/-- Advance task `t` (at index `i`) by one atomic block. -/
def taskStep (reg : Reg) (c : Config) (t : VTask) (i : Nat) : Config :=
  match t.pc with
  | 0 =>
    { c with
      log := c.log ++ [.fetchMan t.dep.name],
      tasks := c.tasks.set i { t with pc := 1 } }
  | 1 =>
    { c with
      visited := c.visited ++ [t.dep.name],
      tasks := c.tasks.set i { t with pc := 2 } }
  | 2 =>
    { c with
      tasks := c.tasks.set i
        { t with pc := 3, children := expansion_children c.visited (reg t.dep.name) } }
  | 3 =>
    { c with
      log := c.log ++ [.install t.dep.name],
      tasks := c.tasks.set i { t with pc := 4 } }
  | 4 =>
    { c with
      tasks := (c.tasks.set i { t with pc := 5 }) ++
        t.children.map (fun d => { dep := d, pc := 0, children := [] }) }
  | _ => c

/-- One scheduler step: advance the task the schedule names, if any. -/
def step (reg : Reg) (c : Config) (i : Nat) : Config :=
  match c.tasks[i]? with
  | some t => taskStep reg c t i
  | none => c

/-- Run a schedule from a configuration. -/
def run (reg : Reg) (c : Config) (sched : List Nat) : Config :=
  sched.foldl (step reg) c

/-- A fresh task for a root request. -/
def rootTask (d : Dep) : VTask := { dep := d, pc := 0, children := [] }

/-- Concrete registry for the fan-out scenario: `A` and `B` both depend on
`C`; `C` has no dependencies. -/
def regAB : Reg := fun n =>
  if n = "A" then ⟨"A", some [("C", "1.0.0")], none⟩
  else if n = "B" then ⟨"B", some [("C", "1.0.0")], none⟩
  else ⟨n, none, none⟩

/-- Initial configuration seeded with root requests for `A` and `B`. -/
def configAB : Config :=
  { visited := [], log := [],
    tasks := [rootTask ⟨"A", "1.0.0"⟩, rootTask ⟨"B", "1.0.0"⟩] }

/-- A schedule in which `A` and `B` each run up to their child spawn before
either spawned `C` task begins: both observe `C` absent and both spawn it. -/
def schedAB : List Nat :=
  [0, 0, 0, 0, 0, 1, 1, 1, 1, 1, 2, 2, 2, 2, 2, 3, 3, 3, 3, 3]

/-- A populated install dir with its manifest marker but no other files, and
a `dist` that declares no `fileCount`. -/
def fsMarker : FS :=
  { dirs := ["node_modules".toList, "node_modules/foo".toList],
    files := ["node_modules/foo/package.json".toList] }

/-- A fully populated install dir with two files, matching a declared
`fileCount` of 2. -/
def fsPopulated : FS :=
  { dirs := ["node_modules".toList, "node_modules/foo".toList],
    files := ["node_modules/foo/package.json".toList,
              "node_modules/foo/index.js".toList] }

/-- A resolved package whose only dependencies are devDependencies. -/
def pkgDevOnly : DependencyR := ⟨"P", none, some [("d", "1.0.0")]⟩

/-- Invariant of the walker semantics: every name in the visited map has had
its manifest fetched, and every task past its fetch step has logged the
fetch of its own name. -/
def WalkerInv (c : Config) : Prop :=
  (∀ n ∈ c.visited, Ev.fetchMan n ∈ c.log) ∧
    (∀ t ∈ c.tasks, 1 ≤ t.pc → Ev.fetchMan t.dep.name ∈ c.log)

/-! ## Lawfulness of the semver comparators -/

instance : TransCmp charCmp :=
  inferInstanceAs (TransCmp (Ordering.byKey Char.toNat compare))

instance listCmpOriented {α : Type} {c : α → α → Ordering} [OrientedCmp c] :
    OrientedCmp (listCmp c) where
  symm x y := by
    induction x generalizing y with
    | nil => cases y <;> rfl
    | cons a as ih =>
      cases y with
      | nil => rfl
      | cons b bs =>
        show ((c a b).then (listCmp c as bs)).swap = (c b a).then (listCmp c bs as)
        rw [Ordering.swap_then, OrientedCmp.symm a b, ih bs]

instance listCmpTrans {α : Type} {c : α → α → Ordering} [TransCmp c] :
    TransCmp (listCmp c) where
  le_trans {x y z} h1 h2 := by
    induction x generalizing y z with
    | nil =>
      cases z with
      | nil => simp [listCmp]
      | cons d ds => simp [listCmp]
    | cons a as ih =>
      cases y with
      | nil => exact absurd rfl h1
      | cons b bs =>
        cases z with
        | nil => exact absurd rfl h2
        | cons d ds =>
          simp only [listCmp, ne_eq, Ordering.then_eq_gt, not_or, not_and] at h1 h2 ⊢
          constructor
          · exact TransCmp.le_trans h1.1 h2.1
          · intro had hlist
            cases hab : c a b with
            | gt => exact h1.1 hab
            | eq =>
              have hbd : c b d = Ordering.eq := by
                rw [← TransCmp.cmp_congr_left hab]; exact had
              exact ih (h1.2 hab) (h2.2 hbd) hlist
            | lt =>
              have hdb : c d b = Ordering.lt := by
                rw [← TransCmp.cmp_congr_left had]; exact hab
              exact h2.1 (OrientedCmp.cmp_eq_gt.2 hdb)

instance : TransCmp idCmp :=
  inferInstanceAs (TransCmp (compareLex (Ordering.byKey idTag compare)
    (compareLex (Ordering.byKey idNum compare)
      (Ordering.byKey idStr (listCmp charCmp)))))

instance : TransCmp preCmp :=
  inferInstanceAs (TransCmp
    (compareLex (Ordering.byKey preRank compare) (listCmp idCmp)))

instance : TransCmp verCmp :=
  inferInstanceAs (TransCmp
    (compareLex (Ordering.byKey SemVer.major compare)
      (compareLex (Ordering.byKey SemVer.minor compare)
        (compareLex (Ordering.byKey SemVer.patch compare)
          (Ordering.byKey SemVer.pre preCmp)))))

/-! ## Lemmas about `resolve_version` -/

theorem verCmp_refl (v : SemVer) : verCmp v v = .eq := OrientedCmp.cmp_refl

theorem maxStep_bounds (acc x : SemVer) :
    verCmp acc (maxStep acc x) ≠ .gt ∧ verCmp x (maxStep acc x) ≠ .gt := by
  unfold maxStep
  by_cases h : verCmp x acc = .lt
  · rw [if_pos h]
    refine ⟨by rw [verCmp_refl _]; simp, by rw [h]; simp⟩
  · rw [if_neg h]
    refine ⟨fun hg => h (OrientedCmp.cmp_eq_gt.1 hg),
      by rw [verCmp_refl _]; simp⟩

theorem foldl_maxStep_ub (vs : List SemVer) (acc : SemVer) :
    verCmp acc (vs.foldl maxStep acc) ≠ .gt ∧
      ∀ w ∈ vs, verCmp w (vs.foldl maxStep acc) ≠ .gt := by
  induction vs generalizing acc with
  | nil => exact ⟨by rw [List.foldl_nil, verCmp_refl _]; simp, by simp⟩
  | cons x xs ih =>
    have hs := maxStep_bounds acc x
    have htail := ih (maxStep acc x)
    rw [List.foldl_cons]
    refine ⟨TransCmp.le_trans hs.1 htail.1, ?_⟩
    intro w hw
    rcases List.mem_cons.1 hw with rfl | hw
    · exact TransCmp.le_trans hs.2 htail.1
    · exact htail.2 w hw

theorem foldl_maxStep_mem (vs : List SemVer) (acc : SemVer) :
    vs.foldl maxStep acc = acc ∨ vs.foldl maxStep acc ∈ vs := by
  induction vs generalizing acc with
  | nil => exact Or.inl rfl
  | cons x xs ih =>
    rw [List.foldl_cons]
    rcases ih (maxStep acc x) with h | h
    · by_cases hc : verCmp x acc = .lt
      · left; rw [h, maxStep, if_pos hc]
      · right; rw [h, maxStep, if_neg hc]; exact List.mem_cons_self x xs
    · right; exact List.mem_cons_of_mem x h

theorem findSatisfied_of_unsat (r : Range) (l : List String)
    (hall : ∀ k ∈ l, (parseVersion k).isSome = true)
    (hns : ∀ k ∈ l, ∀ v, parseVersion k = some v → satisfies r v = false) :
    findSatisfied r l = .ok none := by
  induction l with
  | nil => rfl
  | cons k ks ih =>
    have h1 := hall k (List.mem_cons_self k ks)
    cases hv : parseVersion k with
    | none => rw [hv] at h1; simp at h1
    | some v =>
      have hsat := hns k (List.mem_cons_self k ks) v hv
      simp only [findSatisfied, hv, hsat, Bool.false_eq_true, if_false]
      exact ih (fun k hk => hall k (List.mem_cons_of_mem _ hk))
        (fun k hk => hns k (List.mem_cons_of_mem _ hk))

theorem findSatisfied_mem (r : Range) (l : List String) (v : SemVer)
    (h : findSatisfied r l = .ok (some v)) : ∃ k ∈ l, parseVersion k = some v := by
  induction l with
  | nil => simp [findSatisfied] at h
  | cons k ks ih =>
    cases hv : parseVersion k with
    | none => rw [findSatisfied, hv] at h; cases h
    | some w =>
      simp only [findSatisfied, hv] at h
      by_cases hs : satisfies r w = true
      · rw [if_pos hs] at h
        cases h
        exact ⟨k, List.mem_cons_self k ks, hv⟩
      · rw [if_neg hs] at h
        obtain ⟨k2, hk2, hp⟩ := ih h
        exact ⟨k2, List.mem_cons_of_mem _ hk2, hp⟩

theorem collectVersions_all (l : List String)
    (hall : ∀ k ∈ l, (parseVersion k).isSome = true) :
    collectVersions l = .ok (l.filterMap parseVersion) := by
  induction l with
  | nil => rfl
  | cons k ks ih =>
    have h1 := hall k (List.mem_cons_self k ks)
    cases hv : parseVersion k with
    | none => rw [hv] at h1; simp at h1
    | some v =>
      rw [collectVersions, hv, ih (fun k hk => hall k (List.mem_cons_of_mem _ hk)),
        List.filterMap_cons, hv]

theorem findSatisfied_isOk (r : Range) (l : List String)
    (hall : ∀ k ∈ l, (parseVersion k).isSome = true) :
    ∃ o, findSatisfied r l = .ok o := by
  induction l with
  | nil => exact ⟨none, rfl⟩
  | cons k ks ih =>
    have h1 := hall k (List.mem_cons_self k ks)
    cases hv : parseVersion k with
    | none => rw [hv] at h1; simp at h1
    | some v =>
      by_cases hs : satisfies r v = true
      · exact ⟨some v, by simp only [findSatisfied, hv, hs, if_true]⟩
      · obtain ⟨o, ho⟩ := ih (fun k hk => hall k (List.mem_cons_of_mem _ hk))
        exact ⟨o, by simp only [findSatisfied, hv, hs, Bool.false_eq_true, if_false]; exact ho⟩

/-- C3 (amended): for every listing whose dot-containing keys are all
parseable, holding at least one parseable candidate, and every range that no
parseable candidate satisfies, `resolve_version` returns a candidate maximal
under semver precedence — hence the unique candidate when exactly one
exists.  (As literally stated the claim fails when a dot-containing key is
unparseable: the code panics instead of returning, see the counterexample.) -/
theorem c3_resolve_fallback (keys : List String) (r : Range)
    (hall : ∀ k ∈ keys.filter hasDot, (parseVersion k).isSome = true)
    (hne : parsedCandidates keys ≠ [])
    (hns : ∀ v ∈ parsedCandidates keys, satisfies r v = false) :
    ∃ m, resolve_version keys r = .ok m ∧ m ∈ parsedCandidates keys ∧
      (∀ w ∈ parsedCandidates keys, verCmp w m ≠ .gt) ∧
      (∀ u, parsedCandidates keys = [u] → m = u) := by
  have hns' : ∀ k ∈ keys.filter hasDot, ∀ v,
      parseVersion k = some v → satisfies r v = false := by
    intro k hk v hv
    exact hns v (List.mem_filterMap.2 ⟨k, hk, hv⟩)
  obtain ⟨v, vs, hvs⟩ : ∃ v vs, parsedCandidates keys = v :: vs := by
    cases h : parsedCandidates keys with
    | nil => exact absurd h hne
    | cons v vs => exact ⟨v, vs, rfl⟩
  have hfm : (keys.filter hasDot).filterMap parseVersion = v :: vs := hvs
  cases vs with
  | nil =>
    refine ⟨v, ?_, ?_, ?_, ?_⟩
    · simp only [resolve_version]
      rw [findSatisfied_of_unsat r _ hall hns', collectVersions_all _ hall, hfm]
    · rw [hvs]; exact List.mem_cons_self v []
    · intro w hw
      rw [hvs, List.mem_singleton] at hw
      rw [hw, verCmp_refl _]
      simp
    · intro u hu
      rw [hvs] at hu
      injection hu
  | cons w ws =>
    refine ⟨(w :: ws).foldl maxStep v, ?_, ?_, ?_, ?_⟩
    · simp only [resolve_version]
      rw [findSatisfied_of_unsat r _ hall hns', collectVersions_all _ hall, hfm]
      rfl
    · rw [hvs]
      rcases foldl_maxStep_mem (w :: ws) v with h | h
      · rw [h]; exact List.mem_cons_self v (w :: ws)
      · exact List.mem_cons_of_mem v h
    · intro u hu
      rw [hvs] at hu
      have hub := foldl_maxStep_ub (w :: ws) v
      rcases List.mem_cons.1 hu with rfl | hu
      · exact hub.1
      · exact hub.2 u hu
    · intro u hu
      rw [hvs] at hu
      simp at hu

/-- C3 witness: the claim's second example — versions `1.0.0`, `1.2.0`,
`2.0.0` and the unsatisfiable range `^9.0.0` — resolves to the maximum,
`2.0.0`. -/
theorem c3_witness :
    ∃ m, resolve_version ["1.0.0", "1.2.0", "2.0.0"] (Range.caret ⟨9, 0, 0, []⟩) = .ok m ∧
      m ∈ parsedCandidates ["1.0.0", "1.2.0", "2.0.0"] ∧
      (∀ w ∈ parsedCandidates ["1.0.0", "1.2.0", "2.0.0"], verCmp w m ≠ .gt) ∧
      (∀ u, parsedCandidates ["1.0.0", "1.2.0", "2.0.0"] = [u] → m = u) :=
  c3_resolve_fallback ["1.0.0", "1.2.0", "2.0.0"] (Range.caret ⟨9, 0, 0, []⟩)
    (by decide) (by decide) (by decide)

/-- C3 counterexample: the listing `{1.0.0, a.b}` contains one parseable
version and the range `^2.0.0` satisfies no parseable candidate, yet
`resolve_version` panics on the unparseable dotted key `a.b` instead of
returning `1.0.0` as the claim requires. -/
theorem c3_counterexample :
    resolve_version ["1.0.0", "a.b"] (Range.caret ⟨2, 0, 0, []⟩) = .error .parsePanic ∧
      parseVersion "1.0.0" = some ⟨1, 0, 0, []⟩ ∧
      parseVersion "a.b" = none ∧
      satisfies (Range.caret ⟨2, 0, 0, []⟩) ⟨1, 0, 0, []⟩ = false := by
  decide

/-- C4 (amended): entries without a dot are excluded without failing, but a
dot-containing entry that does not parse panics (rather than being
excluded).  When every dot-containing entry parses, `resolve_version`
returns normally exactly when at least one dot-containing entry exists. -/
theorem c4_resolve_ok_iff (keys : List String) (r : Range)
    (hall : ∀ k ∈ keys.filter hasDot, (parseVersion k).isSome = true) :
    (∃ v, resolve_version keys r = .ok v) ↔
      keys.filter hasDot ≠ [] := by
  constructor
  · rintro ⟨v, hv⟩ hnil
    have hbad : resolve_version keys r = .error .noVersions := by
      simp only [resolve_version]
      rw [hnil]
      rfl
    rw [hbad] at hv
    cases hv
  · intro hne
    obtain ⟨k, ks, hd⟩ := List.exists_cons_of_ne_nil hne
    obtain ⟨o, ho⟩ := findSatisfied_isOk r _ hall
    cases o with
    | some w =>
      refine ⟨w, ?_⟩
      simp only [resolve_version]
      rw [ho]
    | none =>
      have hk : (parseVersion k).isSome = true := hall k (hd ▸ List.mem_cons_self k ks)
      obtain ⟨w, hw⟩ := Option.isSome_iff_exists.1 hk
      have hfm : (keys.filter hasDot).filterMap parseVersion =
          w :: ks.filterMap parseVersion := by
        rw [hd, List.filterMap_cons, hw]
      cases hrest : ks.filterMap parseVersion with
      | nil =>
        refine ⟨w, ?_⟩
        simp only [resolve_version]
        rw [ho, collectVersions_all _ hall, hfm, hrest]
      | cons u us =>
        refine ⟨(u :: us).foldl maxStep w, ?_⟩
        simp only [resolve_version]
        rw [ho, collectVersions_all _ hall, hfm, hrest]
        rfl

/-- C4 witness: the listing `{created, modified, 1.3.1}` has non-version
entries without dots (excluded, not fatal) and one parseable version, so
resolution returns normally. -/
theorem c4_witness :
    ∃ v, resolve_version ["created", "modified", "1.3.1"] Range.star = .ok v :=
  (c4_resolve_ok_iff ["created", "modified", "1.3.1"] Range.star (by decide)).2
    (by decide)

/-- C4 counterexample: the listing `{a.b, 1.0.0}` contains the parseable
version `1.0.0`, yet `resolve_version` fails — the unparseable dotted entry
`a.b` is not excluded from the candidate set, it panics. -/
theorem c4_counterexample :
    resolve_version ["a.b", "1.0.0"] (Range.caret ⟨1, 0, 0, []⟩) = .error .parsePanic ∧
      parseVersion "1.0.0" = some ⟨1, 0, 0, []⟩ ∧
      parseVersion "a.b" = none := by
  decide

/-- C10: whenever the dot-containing listing keys are all parseable, any
version `resolve_version` returns is one of the listing's parseable
candidates — resolution never synthesizes an unlisted version. -/
theorem c10_resolve_listed (keys : List String) (r : Range)
    (hall : ∀ k ∈ keys.filter hasDot, (parseVersion k).isSome = true)
    (v : SemVer) (hres : resolve_version keys r = .ok v) :
    v ∈ parsedCandidates keys := by
  simp only [resolve_version] at hres
  cases hfind : findSatisfied r (keys.filter hasDot) with
  | error e => rw [hfind] at hres; cases hres
  | ok o =>
    cases o with
    | some w =>
      rw [hfind] at hres
      obtain rfl : w = v := Except.ok.inj hres
      obtain ⟨k, hk, hp⟩ := findSatisfied_mem r _ w hfind
      exact List.mem_filterMap.2 ⟨k, hk, hp⟩
    | none =>
      rw [hfind, collectVersions_all _ hall] at hres
      cases hfm : (keys.filter hasDot).filterMap parseVersion with
      | nil => rw [hfm] at hres; cases hres
      | cons u us =>
        rw [hfm] at hres
        cases us with
        | nil =>
          obtain rfl : u = v := Except.ok.inj hres
          rw [parsedCandidates, hfm]
          exact List.mem_cons_self u []
        | cons w ws =>
          obtain rfl : (w :: ws).foldl maxStep u = v := Except.ok.inj hres
          rw [parsedCandidates, hfm]
          rcases foldl_maxStep_mem (w :: ws) u with h | h
          · rw [h]; exact List.mem_cons_self u (w :: ws)
          · exact List.mem_cons_of_mem u h

/-- C10 witness: on the listing `{created, 1.0.0, 1.3.0}` with range
`^1.0.0`, the resolved version is one of the listed candidates. -/
theorem c10_witness :
    resolve_version ["created", "1.0.0", "1.3.0"] (Range.caret ⟨1, 0, 0, []⟩) =
        .ok ⟨1, 0, 0, []⟩ ∧
      (⟨1, 0, 0, []⟩ : SemVer) ∈ parsedCandidates ["created", "1.0.0", "1.3.0"] :=
  ⟨by decide,
    c10_resolve_listed ["created", "1.0.0", "1.3.0"] (Range.caret ⟨1, 0, 0, []⟩)
      (by decide) ⟨1, 0, 0, []⟩ (by decide)⟩

/-! ## Archive path rewriting: C2 and C6 -/

/-- C2: the claim says only the leading wrapping segment is rewritten and
every later path component is preserved; the code calls
`path.replace("package", &dep_dir)`, which substitutes every occurrence of
the substring `package`.  Evaluating the embedding at the entry
`package/package.json` of package `foo` (an entry present in every npm
archive) shows the manifest is relocated to
`node_modules/foo/node_modules/foo.json` instead of
`node_modules/foo/package.json`. -/
theorem c2_replace_all_eval :
    entry_target_path "foo".toList "package/package.json".toList =
        "node_modules/foo/node_modules/foo.json".toList ∧
      entry_target_path "foo".toList "package/package.json".toList ≠
        "node_modules/foo/package.json".toList := by
  decide

theorem chain_ne_collapseGo (ps : List (List Char)) :
    ∀ prev, List.Chain' (fun a b => a ≠ b) (prev :: collapseGo prev ps) := by
  induction ps with
  | nil => intro prev; simp [collapseGo]
  | cons x xs ih =>
    intro prev
    by_cases hx : x = prev
    · rw [collapseGo, if_pos hx]
      exact ih prev
    · rw [collapseGo, if_neg hx]
      exact List.chain'_cons.2 ⟨fun h => hx h.symm, ih x⟩

theorem chain_ne_collapseAdj (l : List (List Char)) :
    List.Chain' (fun a b => a ≠ b) (collapseAdj l) := by
  cases l with
  | nil => simp [collapseAdj]
  | cons p ps => exact chain_ne_collapseGo ps p

/-- C6 (amended): the collapse of immediately repeated path segments is
applied only to entries whose substituted path does not begin with
`node_modules`; for those entries the target is the collapsed re-rooted
path, which contains no adjacent repeated segment.  Entries whose
substituted path does begin with `node_modules` are written at that path
unchanged — repeats there are not collapsed (see the counterexample). -/
theorem c6_collapse_characterization (name entry : List Char) :
    (nmChars.isPrefixOf (lcReplace pkgPat (depDir name) entry) = false →
      entry_target_path name entry =
          joinSeg (collapseAdj (splitSeg
            (depDir name ++ '/' :: lcReplace pkgPat (depDir name) entry))) ∧
        List.Chain' (fun a b => a ≠ b) (collapseAdj (splitSeg
          (depDir name ++ '/' :: lcReplace pkgPat (depDir name) entry)))) ∧
    (nmChars.isPrefixOf (lcReplace pkgPat (depDir name) entry) = true →
      entry_target_path name entry = lcReplace pkgPat (depDir name) entry) := by
  constructor
  · intro h
    refine ⟨?_, chain_ne_collapseAdj _⟩
    simp only [entry_target_path, h, Bool.false_eq_true, if_false]
  · intro h
    simp only [entry_target_path, h, if_true]

/-- C6 witness: the scoped-package entry `estree/readme` of
`@types/estree` goes through the collapse branch; its target is the
collapsed path and carries no adjacent repeated segment. -/
theorem c6_witness :
    entry_target_path "@types/estree".toList "estree/readme".toList =
        joinSeg (collapseAdj (splitSeg
          (depDir "@types/estree".toList ++ '/' ::
            lcReplace pkgPat (depDir "@types/estree".toList) "estree/readme".toList))) ∧
      List.Chain' (fun a b => a ≠ b) (collapseAdj (splitSeg
        (depDir "@types/estree".toList ++ '/' ::
          lcReplace pkgPat (depDir "@types/estree".toList) "estree/readme".toList))) :=
  (c6_collapse_characterization "@types/estree".toList "estree/readme".toList).1
    (by decide)

/-- C6 counterexample: the entry `package/foo/foo/x` of package `foo`
rewrites to `node_modules/foo/foo/foo/x`, whose segments contain immediate
repeats, yet the target is not the collapsed path — the collapse only runs
in the non-`node_modules` branch, contradicting the claim's universal
quantification over entries. -/
theorem c6_counterexample :
    entry_target_path "foo".toList "package/foo/foo/x".toList =
        "node_modules/foo/foo/foo/x".toList ∧
      splitSeg (entry_target_path "foo".toList "package/foo/foo/x".toList) =
        ["node_modules".toList, "foo".toList, "foo".toList, "foo".toList, "x".toList] ∧
      joinSeg (collapseAdj (splitSeg
          (entry_target_path "foo".toList "package/foo/foo/x".toList))) ≠
        entry_target_path "foo".toList "package/foo/foo/x".toList := by
  decide

/-! ## Install idempotence: C5 -/

/-- C5 (amended): when the install directory exists, the archive declares an
expected file count, and the walked file count matches, `fetch_tarball`
returns immediately with zero network calls and zero writes.  When no file
count is declared, the short circuit never fires: the archive is re-fetched
(one network call) whatever files — including the package's own manifest —
already exist; the code contains no marker-file check. -/
theorem c5_skip_characterization (fs : FS) (dep_name : List Char)
    (dist : DependencyDist) (archive : List (List Char)) :
    (pathExists fs (depDir dep_name) = true →
      dist.file_count = some (walkFileCount fs (depDir dep_name)) →
      fetch_tarball_model fs dep_name dist archive = (0, fs, [])) ∧
    (dist.file_count = none →
      (fetch_tarball_model fs dep_name dist archive).1 = 1) := by
  constructor
  · intro hex hfc
    simp only [fetch_tarball_model, hex, hfc, beq_self_eq_true, Bool.and_self, if_true]
  · intro hfc
    simp only [fetch_tarball_model, hfc, Bool.and_false, Bool.false_eq_true, if_false]

/-- C5 witness: a directory fully populated with the two files a previous
run extracted, with `fileCount = 2` declared, is skipped: zero network
calls, zero writes, filesystem untouched. -/
theorem c5_witness :
    fetch_tarball_model fsPopulated "foo".toList ⟨"u".toList, some 2⟩
      ["package/index.js".toList] = (0, fsPopulated, []) :=
  (c5_skip_characterization fsPopulated "foo".toList ⟨"u".toList, some 2⟩
      ["package/index.js".toList]).1 (by decide) (by decide)

/-- C5 counterexample: the install directory exists and contains the
package's own manifest `node_modules/foo/package.json` (the claim's marker
file), but the archive declares no file count — the install performs a
network call anyway: marker presence is not sufficient to skip. -/
theorem c5_counterexample :
    (fetch_tarball_model fsMarker "foo".toList ⟨"u".toList, none⟩
        ["package/index.js".toList]).1 = 1 ∧
      fsMarker.files.contains "node_modules/foo/package.json".toList = true ∧
      pathExists fsMarker (depDir "foo".toList) = true := by
  decide

/-! ## Dependency expansion: C7 -/

/-- C7 (amended): the expansion step iterates only the resolved package's
runtime `dependencies` mapping — devDependencies are not consulted — and
constructs a request exactly for each entry whose name is not already in
the visited map.  (The claim's "combined dependency mapping" fails: see the
counterexample, where a devDependencies-only package expands to nothing.) -/
theorem c7_expansion_characterization (visited : List String)
    (package : DependencyR) (d : Dep) :
    d ∈ expansion_children visited package ↔
      ∃ deps, package.dependencies = some deps ∧
        (d.name, d.version) ∈ deps ∧ visited.contains d.name = false := by
  cases hd : package.dependencies with
  | none =>
    simp only [expansion_children, hd]
    simp
  | some deps =>
    simp only [expansion_children, hd, List.mem_map, List.mem_filter]
    constructor
    · rintro ⟨⟨k, v⟩, ⟨hmem, hnv⟩, rfl⟩
      exact ⟨deps, rfl, hmem, by simpa using hnv⟩
    · rintro ⟨deps2, hdeps, hmem, hnv⟩
      obtain rfl : deps = deps2 := Option.some.inj hdeps
      refine ⟨(d.name, d.version), ⟨hmem, by simpa using hnv⟩, ?_⟩
      cases d
      rfl

/-- C7 counterexample: a package whose only children live in
devDependencies expands to no requests at all, although its combined
dependency mapping is non-empty and the child is unvisited. -/
theorem c7_counterexample :
    expansion_children [] pkgDevOnly = [] ∧
      spec_combined_mapping pkgDevOnly = [("d", "1.0.0")] ∧
      ([] : List String).contains "d" = false := by
  decide

/-! ## HTTP client: C8 and C9 -/

/-- C8 (amended): `fetch_dependency` accepts exactly status 200 with no
fallback; any other status — including non-200 success statuses such as
201 — triggers exactly one follow-up request against the `latest` alias.
(The claim's "success status ⇒ no fallback" fails at 201, see the
counterexample; note also that `src/main.rs::fetch_dep`, the fetch path the
binary actually runs, performs no fallback at all.) -/
theorem c8_fallback_characterization (name : String) (resp : HttpResp)
    (latestBody : List Nat) :
    (resp.status = 200 →
      fetch_dependency_model name resp latestBody = (resp.body, [])) ∧
    (resp.status ≠ 200 →
      fetch_dependency_model name resp latestBody =
          (latestBody, [Req.latestAlias name]) ∧
        (fetch_dependency_model name resp latestBody).2.length = 1) := by
  constructor
  · intro h
    simp only [fetch_dependency_model, h, if_true]
  · intro h
    simp only [fetch_dependency_model, h, if_false]
    exact ⟨trivial, rfl⟩

/-- C8 witness: a 404 on the versioned manifest URL triggers exactly one
follow-up request to the `latest` alias, whose body is used. -/
theorem c8_witness :
    fetch_dependency_model "left-pad" ⟨404, [1]⟩ [2] =
        ([2], [Req.latestAlias "left-pad"]) ∧
      (fetch_dependency_model "left-pad" ⟨404, [1]⟩ [2]).2.length = 1 :=
  (c8_fallback_characterization "left-pad" ⟨404, [1]⟩ [2]).2 (by decide)

/-- C8 counterexample: status 201 is a success status, yet the client
issues a fallback request to `latest` — the code's `match` accepts only
`StatusCode::OK`, not the success class, contradicting the claim's "when
the first response is a success status, no fallback request is made". -/
theorem c8_counterexample :
    isSuccessStatus 201 = true ∧
      (fetch_dependency_model "pkg" ⟨201, [1]⟩ [2]).2 = [Req.latestAlias "pkg"] := by
  decide

/-- C9 (amended): `fetch_tarball` never inspects the response status: on a
cache miss it issues the single archive GET and returns the raw body
whatever the status (a non-success response yields the error page's bytes,
not a `NetworkError`); on a cache hit it issues no request.  The only
`NetworkError` path is a transport failure inside `send()`, outside this
function's control flow. -/
theorem c9_tarball_characterization (cache : List (List Char × List Nat))
    (url : List Char) (resp : HttpResp) :
    (cacheLookup cache url = none →
      http_fetch_tarball cache url resp =
        (.ok resp.body, [Req.getUrl url], cache ++ [(url, resp.body)])) ∧
    (∀ b, cacheLookup cache url = some b →
      http_fetch_tarball cache url resp = (.ok b, [], cache)) ∧
    (∃ bytes, (http_fetch_tarball cache url resp).1 = .ok bytes) := by
  refine ⟨?_, ?_, ?_⟩
  · intro h
    simp only [http_fetch_tarball, h]
  · intro b h
    simp only [http_fetch_tarball, h]
  · cases h : cacheLookup cache url with
    | none => exact ⟨resp.body, by simp only [http_fetch_tarball, h]⟩
    | some b => exact ⟨b, by simp only [http_fetch_tarball, h]⟩

/-- C9 witness: a cache-miss archive fetch with a 500 response returns the
raw body and issues exactly the archive GET. -/
theorem c9_witness :
    http_fetch_tarball [] "u".toList ⟨500, [9]⟩ =
      (.ok [9], [Req.getUrl "u".toList], [("u".toList, [9])]) :=
  (c9_tarball_characterization [] "u".toList ⟨500, [9]⟩).1 (by decide)

/-- C9 counterexample: status 404 is not a success status, yet
`fetch_tarball` returns the raw body instead of failing with
`NetworkError` — the code never checks the status. -/
theorem c9_counterexample :
    isSuccessStatus 404 = false ∧
      (http_fetch_tarball [] "u".toList ⟨404, [7, 8]⟩).1 = .ok [7, 8] := by
  decide

/-! ## Concurrent traversal: C1 -/

/-- C1 counterexample: in the fan-out graph where `A` and `B` both depend
on `C`, the schedule that lets each parent reach its child-spawn step
before either spawned `C` task begins produces two manifest fetches and two
archive installs for `C` — the claimed at-most-once invariant fails, and
with it the claimed atomic check-and-insert. -/
theorem c1_counterexample :
    (run regAB configAB schedAB).log.count (Ev.fetchMan "C") = 2 ∧
      (run regAB configAB schedAB).log.count (Ev.install "C") = 2 := by
  decide

theorem walkerInv_step (reg : Reg) (c : Config) (i : Nat)
    (h : WalkerInv c) : WalkerInv (step reg c i) := by
  unfold step
  cases hti : c.tasks[i]? with
  | none => exact h
  | some t =>
    have htmem : t ∈ c.tasks := List.getElem?_mem hti
    obtain ⟨d, pc, ch⟩ := t
    match pc with
    | 0 =>
      refine ⟨fun n hn => List.mem_append_left _ (h.1 n hn), fun u hu h1 => ?_⟩
      rcases List.mem_or_eq_of_mem_set hu with hu | rfl
      · exact List.mem_append_left _ (h.2 u hu h1)
      · exact List.mem_append_right _ (List.mem_singleton_self _)
    | 1 =>
      have hf : Ev.fetchMan d.name ∈ c.log := h.2 ⟨d, 1, ch⟩ htmem (by exact Nat.le_refl 1)
      refine ⟨fun n hn => ?_, fun u hu h1 => ?_⟩
      · rcases List.mem_append.1 hn with hn | hn
        · exact h.1 n hn
        · rw [List.mem_singleton.1 hn]; exact hf
      · rcases List.mem_or_eq_of_mem_set hu with hu | rfl
        · exact h.2 u hu h1
        · exact hf
    | 2 =>
      refine ⟨h.1, fun u hu h1 => ?_⟩
      rcases List.mem_or_eq_of_mem_set hu with hu | rfl
      · exact h.2 u hu h1
      · exact h.2 ⟨d, 2, ch⟩ htmem (by exact Nat.succ_le_succ (Nat.zero_le _))
    | 3 =>
      refine ⟨fun n hn => List.mem_append_left _ (h.1 n hn), fun u hu h1 => ?_⟩
      rcases List.mem_or_eq_of_mem_set hu with hu | rfl
      · exact List.mem_append_left _ (h.2 u hu h1)
      · exact List.mem_append_left _ (h.2 ⟨d, 3, ch⟩ htmem (by exact Nat.succ_le_succ (Nat.zero_le _)))
    | 4 =>
      refine ⟨h.1, fun u hu h1 => ?_⟩
      rcases List.mem_append.1 hu with hu | hu
      · rcases List.mem_or_eq_of_mem_set hu with hu | rfl
        · exact h.2 u hu h1
        · exact h.2 ⟨d, 4, ch⟩ htmem (by exact Nat.succ_le_succ (Nat.zero_le _))
      · obtain ⟨e, _, rfl⟩ := List.mem_map.1 hu
        simp at h1
    | (m + 5) =>
      exact h

theorem walkerInv_run (reg : Reg) (sched : List Nat) (c : Config)
    (h : WalkerInv c) : WalkerInv (run reg c sched) := by
  induction sched generalizing c with
  | nil => exact h
  | cons i is ih => exact ih _ (walkerInv_step reg c i h)

/-- C1 (amended): the membership check (in the parent's expansion step) and
the insert (at the start of the spawned child's own processing) are
separate critical sections, with the child's manifest fetch in between, so
the same name can be fetched and installed more than once under concurrent
interleavings.  What does hold: under every schedule, a name is inserted
into the visited map only after a manifest fetch for that name has been
logged — the insert follows the fetch, it never precedes it. -/
theorem c1_insert_after_fetch (reg : Reg) (tasks0 : List VTask)
    (sched : List Nat) (h0 : ∀ t ∈ tasks0, t.pc = 0) (n : String)
    (hn : n ∈ (run reg { visited := [], log := [], tasks := tasks0 } sched).visited) :
    Ev.fetchMan n ∈ (run reg { visited := [], log := [], tasks := tasks0 } sched).log := by
  have hinv : WalkerInv { visited := [], log := [], tasks := tasks0 } := by
    refine ⟨by simp, fun t ht h1 => ?_⟩
    rw [h0 t ht] at h1
    omega
  exact (walkerInv_run reg sched _ hinv).1 n hn

/-- C1 witness: running the single root task for `A` two steps inserts `A`
into the visited map, and its manifest fetch is indeed in the log. -/
theorem c1_witness :
    Ev.fetchMan "A" ∈
      (run regAB ⟨[], [], [rootTask ⟨"A", "1.0.0"⟩]⟩ [0, 0]).log :=
  c1_insert_after_fetch regAB [rootTask ⟨"A", "1.0.0"⟩] [0, 0] (by decide) "A"
    (by decide)
